import Mathlib

/-!
Verification development for a pennylane excerpt consisting of three parts:
a single-qubit ZYZ unitary decomposition (exercised by
tests/transforms/test_decompositions.py), the quantum natural gradient
optimizer (pennylane/optimize/qng.py), and a light gate-merging utility
(exercised by tests/transforms/test_light_gate_merging.py).

Floating-point complex arithmetic is idealised as exact arithmetic over the
real and complex numbers, and tolerance comparisons become exact comparisons.
-/

open scoped Classical

noncomputable section

/-- Complex 2x2 matrix in row-major convention: the fields a, b, c, d are the
entries (0,0), (0,1), (1,0), (1,1) respectively. -/
@[ext]
structure Mat2 where
  a : ℂ
  b : ℂ
  c : ℂ
  d : ℂ

instance : One Mat2 := ⟨⟨1, 0, 0, 1⟩⟩

instance : Add Mat2 := ⟨fun M N => ⟨M.a + N.a, M.b + N.b, M.c + N.c, M.d + N.d⟩⟩

instance : Mul Mat2 :=
  ⟨fun M N => ⟨M.a * N.a + M.b * N.c, M.a * N.b + M.b * N.d,
               M.c * N.a + M.d * N.c, M.c * N.b + M.d * N.d⟩⟩

instance : SMul ℂ Mat2 := ⟨fun z M => ⟨z * M.a, z * M.b, z * M.c, z * M.d⟩⟩

@[simp] theorem Mat2.one_a : (1 : Mat2).a = 1 := rfl

@[simp] theorem Mat2.one_b : (1 : Mat2).b = 0 := rfl

@[simp] theorem Mat2.one_c : (1 : Mat2).c = 0 := rfl

@[simp] theorem Mat2.one_d : (1 : Mat2).d = 1 := rfl

@[simp] theorem Mat2.add_a (M N : Mat2) : (M + N).a = M.a + N.a := rfl

@[simp] theorem Mat2.add_b (M N : Mat2) : (M + N).b = M.b + N.b := rfl

@[simp] theorem Mat2.add_c (M N : Mat2) : (M + N).c = M.c + N.c := rfl

@[simp] theorem Mat2.add_d (M N : Mat2) : (M + N).d = M.d + N.d := rfl

@[simp] theorem Mat2.mul_a (M N : Mat2) : (M * N).a = M.a * N.a + M.b * N.c := rfl

@[simp] theorem Mat2.mul_b (M N : Mat2) : (M * N).b = M.a * N.b + M.b * N.d := rfl

@[simp] theorem Mat2.mul_c (M N : Mat2) : (M * N).c = M.c * N.a + M.d * N.c := rfl

@[simp] theorem Mat2.mul_d (M N : Mat2) : (M * N).d = M.c * N.b + M.d * N.d := rfl

@[simp] theorem Mat2.smul_a (z : ℂ) (M : Mat2) : (z • M).a = z * M.a := rfl

@[simp] theorem Mat2.smul_b (z : ℂ) (M : Mat2) : (z • M).b = z * M.b := rfl

@[simp] theorem Mat2.smul_c (z : ℂ) (M : Mat2) : (z • M).c = z * M.c := rfl

@[simp] theorem Mat2.smul_d (z : ℂ) (M : Mat2) : (z • M).d = z * M.d := rfl

/-- Conjugate transpose. -/
def Mat2.dagger (M : Mat2) : Mat2 :=
  ⟨starRingEnd ℂ M.a, starRingEnd ℂ M.c, starRingEnd ℂ M.b, starRingEnd ℂ M.d⟩

@[simp] theorem Mat2.dagger_a (M : Mat2) : M.dagger.a = starRingEnd ℂ M.a := rfl

@[simp] theorem Mat2.dagger_b (M : Mat2) : M.dagger.b = starRingEnd ℂ M.c := rfl

@[simp] theorem Mat2.dagger_c (M : Mat2) : M.dagger.c = starRingEnd ℂ M.b := rfl

@[simp] theorem Mat2.dagger_d (M : Mat2) : M.dagger.d = starRingEnd ℂ M.d := rfl

/-- Determinant of a 2x2 matrix. -/
def Mat2.det (M : Mat2) : ℂ := M.a * M.d - M.b * M.c

/-- Unitarity, the exact-arithmetic idealisation of the source tolerance check
`allclose(U @ U.conj().T, eye(2))`. -/
def isUnitary (M : Mat2) : Prop := M.dagger * M = 1

theorem Mat2.mul_assoc (M N P : Mat2) : M * N * P = M * (N * P) := by
  ext <;> simp <;> ring

theorem Mat2.one_mul (M : Mat2) : 1 * M = M := by
  ext <;> simp

theorem Mat2.mul_one (M : Mat2) : M * 1 = M := by
  ext <;> simp

theorem Mat2.smul_smul (z w : ℂ) (M : Mat2) : z • w • M = (z * w) • M := by
  ext <;> simp <;> ring

theorem Mat2.one_smul (M : Mat2) : (1 : ℂ) • M = M := by
  ext <;> simp

/-- Output gate descriptors of the decomposition: either a single-parameter
RZ rotation or a three-parameter general rotation Rot. -/
inductive GateDescriptor (W : Type) where
  | RZGate (angle : ℝ) (wire : W)
  | RotGate (phi theta omega : ℝ) (wire : W)

/-- Complex exponential of i times a real number, the unit-modulus phase. -/
def cexp (r : ℝ) : ℂ := Complex.exp ((r : ℂ) * Complex.I)

@[simp] theorem cexp_zero : cexp 0 = 1 := by
  simp [cexp]

theorem cexp_mul_cexp (r s : ℝ) : cexp r * cexp s = cexp (r + s) := by
  rw [cexp, cexp, cexp, ← Complex.exp_add]
  push_cast
  ring_nf

@[simp] theorem abs_cexp (r : ℝ) : Complex.abs (cexp r) = 1 :=
  Complex.abs_exp_ofReal_mul_I r

theorem conj_cexp (r : ℝ) : starRingEnd ℂ (cexp r) = cexp (-r) := by
  rw [cexp, cexp, ← Complex.exp_conj]
  simp only [map_mul, Complex.conj_I, Complex.conj_ofReal]
  push_cast
  ring_nf

theorem cexp_ne_zero (r : ℝ) : cexp r ≠ 0 := Complex.exp_ne_zero _

theorem abs_mul_cexp_arg (z : ℂ) : (Complex.abs z : ℂ) * cexp z.arg = z :=
  Complex.abs_mul_exp_arg_mul_I z

/-- Matrix of the RZ gate: diag(exp(-i t/2), exp(i t/2)). -/
def RZmat (t : ℝ) : Mat2 := ⟨cexp (-(t / 2)), 0, 0, cexp (t / 2)⟩

/-- Matrix of the RY gate. -/
def RYmat (t : ℝ) : Mat2 :=
  ⟨(Real.cos (t / 2) : ℂ), (-Real.sin (t / 2) : ℂ),
   (Real.sin (t / 2) : ℂ), (Real.cos (t / 2) : ℂ)⟩

/-- Matrix of the Rot gate: RZ(omega) RY(theta) RZ(phi), the pennylane
convention (phi applied first). -/
def Rotmat (p t o : ℝ) : Mat2 := RZmat o * RYmat t * RZmat p

/-- Matrix of a gate descriptor. -/
def gateMatrix {W : Type} : GateDescriptor W → Mat2
  | .RZGate t _ => RZmat t
  | .RotGate p t o _ => Rotmat p t o

/-- Matrix product of a gate sequence in application order: the head of the
list is applied first, so it stands rightmost in the product. -/
def seqMatrix {W : Type} (gs : List (GateDescriptor W)) : Mat2 :=
  gs.foldl (fun acc g => gateMatrix g * acc) 1

/-- Error raised by the decomposition; the source raises
`ValueError("Operator must be unitary")`, which the spec names
`InvalidOperatorError`. -/
inductive DecompError where
  | invalidOperator

/-- Modelled from the spec: `pennylane.transforms.decompositions._convert_to_su2`
is not under src (only its tests are).  Step 1 of spec section 4.1: remove the
global phase by scaling with exp(-i arg(det U) / 2) so the result has
determinant one. -/
def convert_to_su2 (M : Mat2) : Mat2 :=
  cexp (-(Complex.arg M.det / 2)) • M

/-- Modelled from the spec: `pennylane.transforms.decompositions._zyz_decomposition`
is not under src (only its tests are).  Spec section 4.1: reject non-unitary
input, remove the global phase, take the diagonal fast path returning one
RZGate when both off-diagonal entries vanish, and otherwise return one RotGate
with theta = 2 atan2(abs c, abs a) and phi, omega recovered from the arguments
of the entries; the branch with vanishing top-left entry is fixed by the
literal src test vector for X (expected Rot(0, pi, pi)).  All branch formulas
are validated below against the literal src test vectors of
single_qubit_decomps. -/
def _zyz_decomposition {W : Type} (U : Mat2) (wire : W) :
    Except DecompError (List (GateDescriptor W)) :=
  if isUnitary U then
    if (convert_to_su2 U).b = 0 ∧ (convert_to_su2 U).c = 0 then
      .ok [.RZGate (2 * Complex.arg (convert_to_su2 U).d) wire]
    else if (convert_to_su2 U).a = 0 then
      .ok [.RotGate 0 Real.pi (-2 * Complex.arg (convert_to_su2 U).b) wire]
    else
      .ok [.RotGate (Complex.arg (convert_to_su2 U).d - Complex.arg (convert_to_su2 U).c)
                    (2 * Real.arctan
                      (Complex.abs (convert_to_su2 U).c / Complex.abs (convert_to_su2 U).a))
                    (Complex.arg (convert_to_su2 U).d + Complex.arg (convert_to_su2 U).c) wire]
  else
    .error .invalidOperator

/-- Matrix of the identity gate, from tests/gate_data. -/
def Imat : Mat2 := ⟨1, 0, 0, 1⟩

/-- Matrix of the Pauli Z gate. -/
def Zmat : Mat2 := ⟨1, 0, 0, -1⟩

/-- Matrix of the S gate. -/
def Smat : Mat2 := ⟨1, 0, 0, Complex.I⟩

/-- Matrix of the T gate. -/
def Tmat : Mat2 := ⟨1, 0, 0, Complex.exp ((Real.pi / 4 : ℝ) * Complex.I)⟩

/-- The real number 1 / sqrt 2 as a complex constant. -/
def sqrtHalf : ℂ := ((Real.sqrt 2)⁻¹ : ℝ)

/-- Matrix of the Hadamard gate. -/
def Hmat : Mat2 := ⟨sqrtHalf, sqrtHalf, sqrtHalf, -sqrtHalf⟩

/-- Matrix of the Pauli X gate. -/
def Xmat : Mat2 := ⟨0, 1, 1, 0⟩

theorem Mat2.det_mul (M N : Mat2) : (M * N).det = M.det * N.det := by
  simp only [Mat2.det, Mat2.mul_a, Mat2.mul_b, Mat2.mul_c, Mat2.mul_d]
  ring

theorem Mat2.det_dagger (M : Mat2) : M.dagger.det = starRingEnd ℂ M.det := by
  simp only [Mat2.det, Mat2.dagger, map_sub, map_mul]
  ring

theorem Mat2.det_one : (1 : Mat2).det = 1 := by
  simp [Mat2.det]

theorem Mat2.det_smul (z : ℂ) (M : Mat2) : (z • M).det = z ^ 2 * M.det := by
  simp only [Mat2.det, Mat2.smul_a, Mat2.smul_b, Mat2.smul_c, Mat2.smul_d]
  ring

theorem Mat2.dagger_smul (z : ℂ) (M : Mat2) :
    (z • M).dagger = starRingEnd ℂ z • M.dagger := by
  ext <;> simp [Mat2.dagger]

theorem Mat2.smul_mul_smul (z w : ℂ) (M N : Mat2) :
    z • M * w • N = (z * w) • (M * N) := by
  ext <;> simp <;> ring

theorem isUnitary.det_abs {U : Mat2} (hU : isUnitary U) : Complex.abs U.det = 1 := by
  have h1 : U.dagger.det * U.det = 1 := by
    rw [← Mat2.det_mul, hU, Mat2.det_one]
  rw [Mat2.det_dagger] at h1
  have h2 : (Complex.normSq U.det : ℂ) = 1 := by
    rw [← Complex.normSq_eq_conj_mul_self] at h1
    exact h1
  have h3 : Complex.normSq U.det = 1 := by exact_mod_cast h2
  rw [Complex.abs_apply, h3, Real.sqrt_one]

/-- Unit-modulus phase removed by `convert_to_su2`. -/
theorem convert_to_su2_eq (U : Mat2) :
    convert_to_su2 U = cexp (-(Complex.arg U.det / 2)) • U := rfl

theorem convert_to_su2_det {U : Mat2} (hU : isUnitary U) :
    (convert_to_su2 U).det = 1 := by
  rw [convert_to_su2_eq, Mat2.det_smul]
  set r := U.det.arg with hr
  have h4 : U.det = cexp r := by
    conv_lhs => rw [← abs_mul_cexp_arg U.det]
    rw [hU.det_abs, ← hr]
    norm_num
  rw [h4, sq, cexp_mul_cexp, cexp_mul_cexp,
    show (-(r / 2) + -(r / 2) + r : ℝ) = 0 by ring, cexp_zero]

theorem convert_to_su2_unitary {U : Mat2} (hU : isUnitary U) :
    isUnitary (convert_to_su2 U) := by
  unfold isUnitary
  rw [convert_to_su2_eq, Mat2.dagger_smul, Mat2.smul_mul_smul, hU]
  rw [conj_cexp, cexp_mul_cexp,
    show (-(-(Complex.arg U.det / 2)) + -(Complex.arg U.det / 2) : ℝ) = 0 by ring,
    cexp_zero]
  ext <;> simp

/-- Structure of a special unitary 2x2 matrix: the second column is determined
by the first. -/
theorem su2_entries {V : Mat2} (h1 : isUnitary V) (h2 : V.det = 1) :
    V.d = starRingEnd ℂ V.a ∧ V.c = -starRingEnd ℂ V.b := by
  have hdet := h2
  unfold Mat2.det at hdet
  have hVA : V * ⟨V.d, -V.b, -V.c, V.a⟩ = 1 := by
    ext
    case a => simp only [Mat2.mul_a, Mat2.one_a]; linear_combination hdet
    case b => simp only [Mat2.mul_b, Mat2.one_b]; ring
    case c => simp only [Mat2.mul_c, Mat2.one_c]; ring
    case d => simp only [Mat2.mul_d, Mat2.one_d]; linear_combination hdet
  have hdag : V.dagger = ⟨V.d, -V.b, -V.c, V.a⟩ := by
    calc V.dagger = V.dagger * 1 := (Mat2.mul_one _).symm
    _ = V.dagger * (V * ⟨V.d, -V.b, -V.c, V.a⟩) := by rw [hVA]
    _ = V.dagger * V * ⟨V.d, -V.b, -V.c, V.a⟩ := (Mat2.mul_assoc _ _ _).symm
    _ = 1 * ⟨V.d, -V.b, -V.c, V.a⟩ := by rw [h1]
    _ = ⟨V.d, -V.b, -V.c, V.a⟩ := Mat2.one_mul _
  constructor
  · have := congrArg Mat2.a hdag
    simp [Mat2.dagger] at this
    exact this.symm
  · have := congrArg Mat2.c hdag
    simp [Mat2.dagger] at this
    rw [this, neg_neg]

/-- First-column normalisation of a unitary matrix. -/
theorem unitary_col_norm {V : Mat2} (h1 : isUnitary V) :
    Complex.abs V.a ^ 2 + Complex.abs V.c ^ 2 = 1 := by
  have := congrArg Mat2.a h1
  simp [Mat2.dagger] at this
  have h2 : (Complex.normSq V.a : ℂ) + (Complex.normSq V.c : ℂ) = 1 := by
    rw [Complex.normSq_eq_conj_mul_self, Complex.normSq_eq_conj_mul_self]
    exact this
  have h3 : Complex.normSq V.a + Complex.normSq V.c = 1 := by exact_mod_cast h2
  rw [Complex.sq_abs, Complex.sq_abs]
  exact h3

theorem Rotmat_a (p t o : ℝ) :
    (Rotmat p t o).a = cexp (-((p + o) / 2)) * Real.cos (t / 2) := by
  simp only [Rotmat, RZmat, RYmat, Mat2.mul_a, Mat2.mul_b, zero_mul, mul_zero,
    add_zero, zero_add]
  rw [mul_right_comm, cexp_mul_cexp, show (-(o / 2) + -(p / 2) : ℝ) = -((p + o) / 2) by ring]

theorem Rotmat_b (p t o : ℝ) :
    (Rotmat p t o).b = -(cexp ((p - o) / 2) * Real.sin (t / 2)) := by
  simp only [Rotmat, RZmat, RYmat, Mat2.mul_a, Mat2.mul_b, Mat2.mul_d, zero_mul, mul_zero,
    add_zero, zero_add, mul_neg, neg_mul]
  rw [neg_inj.mpr rfl]
  rw [show cexp (-(o / 2)) * (Real.sin (t / 2) : ℂ) * cexp (p / 2)
      = cexp (-(o / 2)) * cexp (p / 2) * Real.sin (t / 2) by ring,
    cexp_mul_cexp, show (-(o / 2) + p / 2 : ℝ) = (p - o) / 2 by ring]

theorem Rotmat_c (p t o : ℝ) :
    (Rotmat p t o).c = cexp (-((p - o) / 2)) * Real.sin (t / 2) := by
  simp only [Rotmat, RZmat, RYmat, Mat2.mul_a, Mat2.mul_c, zero_mul, mul_zero,
    add_zero, zero_add]
  rw [mul_right_comm, cexp_mul_cexp, show (o / 2 + -(p / 2) : ℝ) = -((p - o) / 2) by ring]

theorem Rotmat_d (p t o : ℝ) :
    (Rotmat p t o).d = cexp ((p + o) / 2) * Real.cos (t / 2) := by
  simp only [Rotmat, RZmat, RYmat, Mat2.mul_b, Mat2.mul_c, Mat2.mul_d, zero_mul, mul_zero,
    add_zero, zero_add]
  rw [mul_right_comm, cexp_mul_cexp, show (o / 2 + p / 2 : ℝ) = (p + o) / 2 by ring]
/-- A diagonal special unitary matrix is exactly the RZ gate at angle
twice the argument of the lower-right entry. -/
theorem su2_diag {V : Mat2} (h1 : isUnitary V) (h2 : V.det = 1)
    (hb : V.b = 0) (hc : V.c = 0) : RZmat (2 * Complex.arg V.d) = V := by
  obtain ⟨hd, _⟩ := su2_entries h1 h2
  have habs := unitary_col_norm h1
  have habs1 : Complex.abs V.a = 1 := by
    have h0 : (0 : ℝ) ≤ Complex.abs V.a := Complex.abs.nonneg _
    have hc0 : Complex.abs V.c = 0 := by rw [hc, map_zero]
    rw [hc0] at habs
    nlinarith
  have habsd : Complex.abs V.d = 1 := by
    rw [hd, Complex.abs_conj, habs1]
  have hdval : V.d = cexp (Complex.arg V.d) := by
    conv_lhs => rw [← abs_mul_cexp_arg V.d]
    rw [habsd]
    norm_num
  have haval : V.a = cexp (-(Complex.arg V.d)) :=
    calc V.a = starRingEnd ℂ V.d := by rw [hd, Complex.conj_conj]
    _ = starRingEnd ℂ (cexp (Complex.arg V.d)) := by conv_lhs => rw [hdval]
    _ = cexp (-(Complex.arg V.d)) := conj_cexp _
  ext
  case a =>
    simp only [RZmat]
    rw [show (-(2 * Complex.arg V.d / 2) : ℝ) = -(Complex.arg V.d) by ring]
    linear_combination -haval
  case b => simp [RZmat, hb]
  case c => simp [RZmat, hc]
  case d =>
    simp only [RZmat]
    rw [show ((2 * Complex.arg V.d / 2) : ℝ) = Complex.arg V.d by ring]
    linear_combination -hdval

/-- An anti-diagonal special unitary matrix equals, up to the global sign,
the Rot gate with angles (0, pi, -2 arg b). -/
theorem su2_rot_pi {V : Mat2} (h1 : isUnitary V) (h2 : V.det = 1)
    (ha : V.a = 0) :
    Rotmat 0 Real.pi (-2 * Complex.arg V.b) = (-1 : ℂ) • V := by
  obtain ⟨hd, hc⟩ := su2_entries h1 h2
  have habs := unitary_col_norm h1
  have habsc : Complex.abs V.c = 1 := by
    have h0 : (0 : ℝ) ≤ Complex.abs V.c := Complex.abs.nonneg _
    have ha0 : Complex.abs V.a = 0 := by rw [ha, map_zero]
    rw [ha0] at habs
    nlinarith
  have habsb : Complex.abs V.b = 1 := by
    have h9 : Complex.abs V.c = Complex.abs V.b := by
      rw [hc]
      simp [Complex.abs_conj]
    rw [← h9, habsc]
  have hbval : V.b = cexp (Complex.arg V.b) := by
    conv_lhs => rw [← abs_mul_cexp_arg V.b]
    rw [habsb]
    norm_num
  have hcval : V.c = -cexp (-(Complex.arg V.b)) :=
    calc V.c = -starRingEnd ℂ V.b := hc
    _ = -starRingEnd ℂ (cexp (Complex.arg V.b)) := by conv_lhs => rw [hbval]
    _ = -cexp (-(Complex.arg V.b)) := by rw [conj_cexp]
  have hdz : V.d = 0 := by rw [hd, ha, map_zero]
  ext
  case a =>
    rw [Rotmat_a, Real.cos_pi_div_two]
    simp only [Mat2.smul_a]
    rw [ha]
    push_cast
    ring
  case b =>
    rw [Rotmat_b,
      show ((0 - -2 * Complex.arg V.b) / 2 : ℝ) = Complex.arg V.b by ring,
      Real.sin_pi_div_two]
    simp only [Mat2.smul_b]
    push_cast
    linear_combination hbval
  case c =>
    rw [Rotmat_c,
      show (-((0 - -2 * Complex.arg V.b) / 2) : ℝ) = -(Complex.arg V.b) by ring,
      Real.sin_pi_div_two]
    simp only [Mat2.smul_c]
    push_cast
    linear_combination hcval
  case d =>
    rw [Rotmat_d, Real.cos_pi_div_two]
    simp only [Mat2.smul_d]
    rw [hdz]
    push_cast
    ring

/-- A special unitary matrix with nonvanishing upper-left entry is exactly the
Rot gate at the recovered Euler angles. -/
theorem su2_rot_general {V : Mat2} (h1 : isUnitary V) (h2 : V.det = 1)
    (ha : V.a ≠ 0) :
    Rotmat (Complex.arg V.d - Complex.arg V.c)
      (2 * Real.arctan (Complex.abs V.c / Complex.abs V.a))
      (Complex.arg V.d + Complex.arg V.c) = V := by
  obtain ⟨hd, hc⟩ := su2_entries h1 h2
  have habs := unitary_col_norm h1
  have haPos : 0 < Complex.abs V.a := Complex.abs.pos ha
  set x := Complex.abs V.c / Complex.abs V.a with hx
  have hsq : 1 + x ^ 2 = ((Complex.abs V.a)⁻¹) ^ 2 := by
    rw [hx]
    field_simp
    linarith
  have hsqrt : Real.sqrt (1 + x ^ 2) = (Complex.abs V.a)⁻¹ := by
    rw [hsq, Real.sqrt_sq (by positivity)]
  have hcos : Real.cos (Real.arctan x) = Complex.abs V.a := by
    rw [Real.cos_arctan, hsqrt, one_div, inv_inv]
  have hsin : Real.sin (Real.arctan x) = Complex.abs V.c := by
    rw [Real.sin_arctan, hsqrt, div_eq_mul_inv, inv_inv, hx,
      div_mul_cancel₀ _ (ne_of_gt haPos)]
  have habsd : Complex.abs V.d = Complex.abs V.a := by
    rw [hd, Complex.abs_conj]
  have hdval : V.d = (Complex.abs V.a : ℂ) * cexp (Complex.arg V.d) := by
    conv_lhs => rw [← abs_mul_cexp_arg V.d]
    rw [habsd]
  have hcval : V.c = (Complex.abs V.c : ℂ) * cexp (Complex.arg V.c) :=
    (abs_mul_cexp_arg V.c).symm
  have haval : V.a = (Complex.abs V.a : ℂ) * cexp (-(Complex.arg V.d)) :=
    calc V.a = starRingEnd ℂ V.d := by rw [hd, Complex.conj_conj]
    _ = starRingEnd ℂ ((Complex.abs V.a : ℂ) * cexp (Complex.arg V.d)) := by
          conv_lhs => rw [hdval]
    _ = (Complex.abs V.a : ℂ) * cexp (-(Complex.arg V.d)) := by
          rw [map_mul, Complex.conj_ofReal, conj_cexp]
  have hbval : V.b = -((Complex.abs V.c : ℂ) * cexp (-(Complex.arg V.c))) :=
    calc V.b = -starRingEnd ℂ V.c := by rw [hc, map_neg, Complex.conj_conj, neg_neg]
    _ = -starRingEnd ℂ ((Complex.abs V.c : ℂ) * cexp (Complex.arg V.c)) := by
          conv_lhs => rw [hcval]
    _ = -((Complex.abs V.c : ℂ) * cexp (-(Complex.arg V.c))) := by
          rw [map_mul, Complex.conj_ofReal, conj_cexp]
  have hhalf : (2 * Real.arctan x) / 2 = Real.arctan x := by ring
  ext
  case a =>
    rw [Rotmat_a, hhalf, hcos,
      show (-((Complex.arg V.d - Complex.arg V.c + (Complex.arg V.d + Complex.arg V.c)) / 2) : ℝ)
        = -(Complex.arg V.d) by ring]
    linear_combination -haval
  case b =>
    rw [Rotmat_b, hhalf, hsin,
      show ((Complex.arg V.d - Complex.arg V.c - (Complex.arg V.d + Complex.arg V.c)) / 2 : ℝ)
        = -(Complex.arg V.c) by ring]
    linear_combination -hbval
  case c =>
    rw [Rotmat_c, hhalf, hsin,
      show (-((Complex.arg V.d - Complex.arg V.c - (Complex.arg V.d + Complex.arg V.c)) / 2) : ℝ)
        = Complex.arg V.c by ring]
    linear_combination -hcval
  case d =>
    rw [Rotmat_d, hhalf, hcos,
      show ((Complex.arg V.d - Complex.arg V.c + (Complex.arg V.d + Complex.arg V.c)) / 2 : ℝ)
        = Complex.arg V.d by ring]
    linear_combination -hdval

theorem seqMatrix_singleton {W : Type} (g : GateDescriptor W) :
    seqMatrix [g] = gateMatrix g := by
  simp only [seqMatrix, List.foldl]
  exact Mat2.mul_one _

theorem convert_b_ne_zero {U : Mat2} (hb : U.b ≠ 0) : (convert_to_su2 U).b ≠ 0 := by
  rw [convert_to_su2_eq, Mat2.smul_b]
  exact mul_ne_zero (cexp_ne_zero _) hb

/-- Case analysis of the decomposition on a unitary input: it always succeeds
with exactly one gate whose matrix reproduces the input up to a unit-modulus
scalar, the gate being an RZGate exactly on the diagonal fast path and a
RotGate otherwise. -/
theorem zyz_main {W : Type} (U : Mat2) (w : W) (hU : isUnitary U) :
    ∃ g : GateDescriptor W, _zyz_decomposition U w = .ok [g] ∧
      (∃ l : ℂ, Complex.abs l = 1 ∧ gateMatrix g = l • U) ∧
      (((convert_to_su2 U).b = 0 ∧ (convert_to_su2 U).c = 0) → ∃ t, g = .RZGate t w) ∧
      (¬((convert_to_su2 U).b = 0 ∧ (convert_to_su2 U).c = 0) →
        ∃ p t o, g = .RotGate p t o w) := by
  have hVdet := convert_to_su2_det hU
  have hVuni := convert_to_su2_unitary hU
  unfold _zyz_decomposition
  rw [if_pos hU]
  by_cases hbc : (convert_to_su2 U).b = 0 ∧ (convert_to_su2 U).c = 0
  · rw [if_pos hbc]
    refine ⟨_, rfl, ⟨cexp (-(Complex.arg U.det / 2)), abs_cexp _, ?_⟩, fun _ => ⟨_, rfl⟩,
      fun h => absurd hbc h⟩
    show RZmat (2 * Complex.arg (convert_to_su2 U).d) = _
    calc RZmat (2 * Complex.arg (convert_to_su2 U).d)
        = convert_to_su2 U := su2_diag hVuni hVdet hbc.1 hbc.2
    _ = cexp (-(Complex.arg U.det / 2)) • U := convert_to_su2_eq U
  · rw [if_neg hbc]
    by_cases haz : (convert_to_su2 U).a = 0
    · rw [if_pos haz]
      refine ⟨_, rfl, ⟨-cexp (-(Complex.arg U.det / 2)), ?_, ?_⟩,
        fun h => absurd h hbc, fun _ => ⟨_, _, _, rfl⟩⟩
      · rw [AbsoluteValue.map_neg, abs_cexp]
      · show Rotmat 0 Real.pi (-2 * Complex.arg (convert_to_su2 U).b) = _
        calc Rotmat 0 Real.pi (-2 * Complex.arg (convert_to_su2 U).b)
            = (-1 : ℂ) • convert_to_su2 U := su2_rot_pi hVuni hVdet haz
        _ = (-1 : ℂ) • (cexp (-(Complex.arg U.det / 2)) • U) := by
              rw [convert_to_su2_eq]
        _ = (-cexp (-(Complex.arg U.det / 2))) • U := by
              rw [Mat2.smul_smul, neg_one_mul]
    · rw [if_neg haz]
      refine ⟨_, rfl, ⟨cexp (-(Complex.arg U.det / 2)), abs_cexp _, ?_⟩,
        fun h => absurd h hbc, fun _ => ⟨_, _, _, rfl⟩⟩
      show Rotmat _ _ _ = _
      calc Rotmat (Complex.arg (convert_to_su2 U).d - Complex.arg (convert_to_su2 U).c)
            (2 * Real.arctan
              (Complex.abs (convert_to_su2 U).c / Complex.abs (convert_to_su2 U).a))
            (Complex.arg (convert_to_su2 U).d + Complex.arg (convert_to_su2 U).c)
          = convert_to_su2 U := su2_rot_general hVuni hVdet haz
      _ = cexp (-(Complex.arg U.det / 2)) • U := convert_to_su2_eq U

theorem cexp_eq (r : ℝ) : cexp r = (Real.cos r : ℂ) + (Real.sin r : ℂ) * Complex.I := by
  rw [cexp, Complex.exp_mul_I, Complex.ofReal_cos, Complex.ofReal_sin]

theorem arg_cexp {r : ℝ} (h : r ∈ Set.Ioc (-Real.pi) Real.pi) :
    Complex.arg (cexp r) = r := by
  rw [cexp_eq, Complex.ofReal_cos, Complex.ofReal_sin]
  exact Complex.arg_cos_add_sin_mul_I h

theorem cexp_add_two_pi (r : ℝ) : cexp (r + 2 * Real.pi) = cexp r := by
  rw [cexp_eq, cexp_eq, Real.cos_add_two_pi, Real.sin_add_two_pi]

theorem cexp_sub_two_pi (r : ℝ) : cexp (r - 2 * Real.pi) = cexp r := by
  rw [cexp_eq, cexp_eq, Real.cos_sub_two_pi, Real.sin_sub_two_pi]

/-- Diagonal matrix of two unit phases, a proof-side normal form covering all
the diagonal test vectors I, Z, S, T and RZ. -/
def diagE (p q : ℝ) : Mat2 := ⟨cexp p, 0, 0, cexp q⟩

theorem diagE_unitary (p q : ℝ) : isUnitary (diagE p q) := by
  unfold isUnitary
  ext
  case a =>
    simp only [diagE, Mat2.dagger, Mat2.mul_a, Mat2.one_a, conj_cexp, cexp_mul_cexp]
    rw [show (-p + p : ℝ) = 0 by ring, cexp_zero]
    simp
  case b => simp [diagE, Mat2.dagger]
  case c => simp [diagE, Mat2.dagger]
  case d =>
    simp only [diagE, Mat2.dagger, Mat2.mul_d, Mat2.one_d, conj_cexp, cexp_mul_cexp]
    rw [show (-q + q : ℝ) = 0 by ring, cexp_zero]
    simp

theorem diagE_det (p q : ℝ) : (diagE p q).det = cexp (p + q) := by
  simp [diagE, Mat2.det, cexp_mul_cexp]

/-- Evaluation of the decomposition on a diagonal matrix of phases, valid when
no principal-branch wrap occurs in the removed determinant phase nor in the
recovered angle. -/
theorem zyz_diagE {W : Type} (p q : ℝ) (w : W)
    (hpq : p + q ∈ Set.Ioc (-Real.pi) Real.pi)
    (hqp : (q - p) / 2 ∈ Set.Ioc (-Real.pi) Real.pi) :
    _zyz_decomposition (diagE p q) w = .ok [.RZGate (q - p) w] := by
  have hconv : convert_to_su2 (diagE p q) = diagE ((p - q) / 2) ((q - p) / 2) := by
    rw [convert_to_su2_eq, diagE_det, arg_cexp hpq]
    ext
    case a =>
      simp only [diagE, Mat2.smul_a, cexp_mul_cexp]
      rw [show (-((p + q) / 2) + p : ℝ) = (p - q) / 2 by ring]
    case b => simp [diagE]
    case c => simp [diagE]
    case d =>
      simp only [diagE, Mat2.smul_d, cexp_mul_cexp]
      rw [show (-((p + q) / 2) + q : ℝ) = (q - p) / 2 by ring]
  unfold _zyz_decomposition
  rw [if_pos (diagE_unitary p q), hconv,
    if_pos (⟨rfl, rfl⟩ : (diagE ((p - q) / 2) ((q - p) / 2)).b = 0
      ∧ (diagE ((p - q) / 2) ((q - p) / 2)).c = 0)]
  show Except.ok [GateDescriptor.RZGate (2 * Complex.arg (cexp ((q - p) / 2))) w] = _
  rw [arg_cexp hqp, show (2 * ((q - p) / 2) : ℝ) = q - p by ring]

theorem cexp_pi : cexp Real.pi = -1 := by
  rw [cexp_eq, Real.cos_pi, Real.sin_pi]
  simp

theorem cexp_pi_div_two : cexp (Real.pi / 2) = Complex.I := by
  rw [cexp_eq, Real.cos_pi_div_two, Real.sin_pi_div_two]
  simp

theorem Imat_eq_diagE : Imat = diagE 0 0 := by
  ext <;> simp [Imat, diagE]

theorem Zmat_eq_diagE : Zmat = diagE 0 Real.pi := by
  ext <;> simp [Zmat, diagE, cexp_pi]

theorem Smat_eq_diagE : Smat = diagE 0 (Real.pi / 2) := by
  ext <;> simp [Smat, diagE, cexp_pi_div_two]

theorem Tmat_eq_diagE : Tmat = diagE 0 (Real.pi / 4) := by
  ext <;> simp [Tmat, diagE, cexp]

theorem RZmat_eq_diagE (t : ℝ) : RZmat t = diagE (-(t / 2)) (t / 2) := rfl

theorem isUnitary.smul {U : Mat2} (hU : isUnitary U) {z : ℂ}
    (hz : Complex.abs z = 1) : isUnitary (z • U) := by
  unfold isUnitary
  rw [Mat2.dagger_smul, Mat2.smul_mul_smul, hU]
  have h1 : starRingEnd ℂ z * z = 1 := by
    rw [mul_comm, Complex.mul_conj]
    rw [← Complex.sq_abs, hz]
    norm_num
  rw [h1]
  ext <;> simp

theorem sqrtHalf_mul_self : sqrtHalf * sqrtHalf = (2 : ℂ)⁻¹ := by
  unfold sqrtHalf
  rw [← Complex.ofReal_mul, ← mul_inv, Real.mul_self_sqrt (by norm_num : (0 : ℝ) ≤ 2)]
  norm_num

theorem conj_sqrtHalf : starRingEnd ℂ sqrtHalf = sqrtHalf := Complex.conj_ofReal _

theorem sqrtHalf_ne_zero : sqrtHalf ≠ 0 := by
  unfold sqrtHalf
  rw [Ne, Complex.ofReal_eq_zero]
  positivity

theorem Imat_unitary : isUnitary Imat := by
  unfold isUnitary
  ext <;> simp [Imat, Mat2.dagger]

theorem Zmat_unitary : isUnitary Zmat := by
  unfold isUnitary
  ext <;> simp [Zmat, Mat2.dagger]

theorem Hmat_unitary : isUnitary Hmat := by
  unfold isUnitary
  have hs := sqrtHalf_mul_self
  ext
  case a =>
    simp only [Hmat, Mat2.dagger, Mat2.mul_a, Mat2.one_a, conj_sqrtHalf]
    linear_combination (2 : ℂ) * hs
  case b =>
    simp only [Hmat, Mat2.dagger, Mat2.mul_b, Mat2.one_b, map_neg, conj_sqrtHalf]
    ring
  case c =>
    simp only [Hmat, Mat2.dagger, Mat2.mul_c, Mat2.one_c, map_neg, conj_sqrtHalf]
    ring
  case d =>
    simp only [Hmat, Mat2.dagger, Mat2.mul_d, Mat2.one_d, map_neg, conj_sqrtHalf]
    linear_combination (2 : ℂ) * hs

theorem IplusH_not_unitary : ¬ isUnitary (Imat + Hmat) := by
  intro h
  have hs := sqrtHalf_mul_self
  have h2 := congrArg Mat2.a h
  simp only [Mat2.dagger, Mat2.add_a, Mat2.add_b, Mat2.add_c, Mat2.mul_a, Mat2.one_a,
    Imat, Hmat, map_add, map_one, map_zero, conj_sqrtHalf] at h2
  have h3 : sqrtHalf = -(2 : ℂ)⁻¹ := by
    linear_combination (h2 - 2 * hs) / 2
  have h4 : ((Real.sqrt 2)⁻¹ : ℝ) = -(2 : ℝ)⁻¹ := by
    have h5 : ((((Real.sqrt 2)⁻¹ : ℝ)) : ℂ) = ((-(2 : ℝ)⁻¹ : ℝ) : ℂ) := by
      rw [show ((-(2 : ℝ)⁻¹ : ℝ) : ℂ) = -(2 : ℂ)⁻¹ by push_cast; ring]
      exact h3
    exact_mod_cast h5
  have h6 : 0 < (Real.sqrt 2)⁻¹ := by positivity
  rw [h4] at h6
  norm_num at h6

/-- Branch unfolding of the decomposition in the general RotGate case. -/
theorem zyz_rot_branch {W : Type} (U : Mat2) (w : W) (hU : isUnitary U)
    (hVb : (convert_to_su2 U).b ≠ 0) (hVa : (convert_to_su2 U).a ≠ 0) :
    _zyz_decomposition U w =
      .ok [.RotGate (Complex.arg (convert_to_su2 U).d - Complex.arg (convert_to_su2 U).c)
            (2 * Real.arctan
              (Complex.abs (convert_to_su2 U).c / Complex.abs (convert_to_su2 U).a))
            (Complex.arg (convert_to_su2 U).d + Complex.arg (convert_to_su2 U).c) w] := by
  unfold _zyz_decomposition
  rw [if_pos hU, if_neg (fun h => hVb h.1), if_neg hVa]

theorem cexp_neg_pi_div_two : cexp (-(Real.pi / 2)) = -Complex.I := by
  rw [cexp_eq, Real.cos_neg, Real.sin_neg, Real.cos_pi_div_two, Real.sin_pi_div_two]
  simp

theorem Hmat_det : Hmat.det = -1 := by
  have hs := sqrtHalf_mul_self
  simp only [Hmat, Mat2.det]
  linear_combination (-2 : ℂ) * hs

theorem convert_Hmat : convert_to_su2 Hmat =
    ⟨-Complex.I * sqrtHalf, -Complex.I * sqrtHalf, -Complex.I * sqrtHalf,
      Complex.I * sqrtHalf⟩ := by
  rw [convert_to_su2_eq, Hmat_det, Complex.arg_neg_one, cexp_neg_pi_div_two]
  ext <;> simp [Hmat]

theorem negI_mul_sqrtHalf_ne_zero : -Complex.I * sqrtHalf ≠ 0 :=
  mul_ne_zero (neg_ne_zero.mpr Complex.I_ne_zero) sqrtHalf_ne_zero

theorem I_mul_sqrtHalf_ne_zero : Complex.I * sqrtHalf ≠ 0 :=
  mul_ne_zero Complex.I_ne_zero sqrtHalf_ne_zero

theorem arg_I_mul_sqrtHalf : Complex.arg (Complex.I * sqrtHalf) = Real.pi / 2 := by
  rw [mul_comm]
  unfold sqrtHalf
  rw [Complex.arg_real_mul _ (by positivity), Complex.arg_I]

theorem arg_negI_mul_sqrtHalf : Complex.arg (-Complex.I * sqrtHalf) = -(Real.pi / 2) := by
  rw [mul_comm]
  unfold sqrtHalf
  rw [Complex.arg_real_mul _ (by positivity), Complex.arg_neg_I]

/-- Evaluation of the decomposition on the Hadamard matrix, matching the src
test vector (H, qml.Rot, [pi, pi/2, 0.0]). -/
theorem zyz_Hmat : _zyz_decomposition Hmat "a" =
    .ok [.RotGate Real.pi (Real.pi / 2) 0 "a"] := by
  rw [zyz_rot_branch Hmat "a" Hmat_unitary
    (by rw [convert_Hmat]; exact negI_mul_sqrtHalf_ne_zero)
    (by rw [convert_Hmat]; exact negI_mul_sqrtHalf_ne_zero), convert_Hmat]
  show Except.ok [GateDescriptor.RotGate
      (Complex.arg (Complex.I * sqrtHalf) - Complex.arg (-Complex.I * sqrtHalf))
      (2 * Real.arctan
        (Complex.abs (-Complex.I * sqrtHalf) / Complex.abs (-Complex.I * sqrtHalf)))
      (Complex.arg (Complex.I * sqrtHalf) + Complex.arg (-Complex.I * sqrtHalf)) "a"] = _
  rw [arg_I_mul_sqrtHalf, arg_negI_mul_sqrtHalf,
    div_self (Complex.abs.ne_zero negI_mul_sqrtHalf_ne_zero), Real.arctan_one,
    show (Real.pi / 2 - -(Real.pi / 2) : ℝ) = Real.pi by ring,
    show (2 * (Real.pi / 4) : ℝ) = Real.pi / 2 by ring,
    show (Real.pi / 2 + -(Real.pi / 2) : ℝ) = 0 by ring]

theorem minusH_det : (cexp Real.pi • Hmat).det = -1 := by
  rw [Mat2.det_smul, cexp_pi, Hmat_det]
  ring

theorem convert_minusH : convert_to_su2 (cexp Real.pi • Hmat) =
    ⟨Complex.I * sqrtHalf, Complex.I * sqrtHalf, Complex.I * sqrtHalf,
      -Complex.I * sqrtHalf⟩ := by
  rw [convert_to_su2_eq, minusH_det, Complex.arg_neg_one, cexp_neg_pi_div_two, cexp_pi]
  ext <;> simp [Hmat]

/-- Evaluation of the decomposition on the Hadamard matrix carrying the extra
global phase exp(i pi) = -1: the recovered phi angle flips sign. -/
theorem zyz_minusH : _zyz_decomposition (cexp Real.pi • Hmat) "a" =
    .ok [.RotGate (-Real.pi) (Real.pi / 2) 0 "a"] := by
  rw [zyz_rot_branch (cexp Real.pi • Hmat) "a"
    (Hmat_unitary.smul (abs_cexp Real.pi))
    (by rw [convert_minusH]; exact I_mul_sqrtHalf_ne_zero)
    (by rw [convert_minusH]; exact I_mul_sqrtHalf_ne_zero), convert_minusH]
  show Except.ok [GateDescriptor.RotGate
      (Complex.arg (-Complex.I * sqrtHalf) - Complex.arg (Complex.I * sqrtHalf))
      (2 * Real.arctan
        (Complex.abs (Complex.I * sqrtHalf) / Complex.abs (Complex.I * sqrtHalf)))
      (Complex.arg (-Complex.I * sqrtHalf) + Complex.arg (Complex.I * sqrtHalf)) "a"] = _
  rw [arg_I_mul_sqrtHalf, arg_negI_mul_sqrtHalf,
    div_self (Complex.abs.ne_zero I_mul_sqrtHalf_ne_zero), Real.arctan_one,
    show (-(Real.pi / 2) - Real.pi / 2 : ℝ) = -Real.pi by ring,
    show (2 * (Real.pi / 4) : ℝ) = Real.pi / 2 by ring,
    show (-(Real.pi / 2) + Real.pi / 2 : ℝ) = 0 by ring]

theorem RZmat_three_pi : RZmat (3 * Real.pi) = RZmat (-Real.pi) := by
  ext
  case a =>
    simp only [RZmat]
    rw [show (-(3 * Real.pi / 2) : ℝ) = -(-Real.pi / 2) - 2 * Real.pi by ring,
      cexp_sub_two_pi]
  case b => rfl
  case c => rfl
  case d =>
    simp only [RZmat]
    rw [show (3 * Real.pi / 2 : ℝ) = -Real.pi / 2 + 2 * Real.pi by ring,
      cexp_add_two_pi]

theorem zyz_rz_neg_pi : _zyz_decomposition (RZmat (-Real.pi)) "a" =
    .ok [.RZGate (-Real.pi) "a"] := by
  have hpos := Real.pi_pos
  rw [RZmat_eq_diagE, zyz_diagE (-(-Real.pi / 2)) (-Real.pi / 2) "a"
    (by constructor <;> [linarith; linarith])
    (by constructor <;> [linarith; linarith]),
    show (-Real.pi / 2 - -(-Real.pi / 2) : ℝ) = -Real.pi by ring]

/-- Parameter structure consumed and returned by the optimizer: a nested
sequence of real numbers of arbitrary shape (spec section 6). -/
inductive PTree where
  | leaf (x : ℝ)
  | nil
  | cons (hd tl : PTree)

/-- Modelled from the spec: `pennylane.utils._flatten` is not under src (only
its caller `qng.py` is).  Flattening of a nested parameter structure into the
vector of its leaves, in order. -/
def _flatten : PTree → List ℝ
  | .leaf x => [x]
  | .nil => []
  | .cons hd tl => _flatten hd ++ _flatten tl

/-- Helper of `unflatten`: rebuilds the shape of the model structure while
consuming values from the flat vector, returning the rebuilt structure and
the unconsumed remainder. -/
def unflattenAux : PTree → List ℝ → PTree × List ℝ
  | .leaf _, v => (.leaf (v.headD 0), v.tail)
  | .nil, v => (.nil, v)
  | .cons hd tl, v =>
    let p := unflattenAux hd v
    let q := unflattenAux tl p.2
    (.cons p.1 q.1, q.2)

/-- Modelled from the spec: `pennylane.utils.unflatten` is not under src (only
its caller `qng.py` is).  Restores a flat vector into the nested shape of the
model structure. -/
def unflatten (flat : List ℝ) (model : PTree) : PTree := (unflattenAux model flat).1

/-- Two parameter structures have the same nested shape. -/
def sameShape : PTree → PTree → Prop
  | .leaf _, .leaf _ => True
  | .nil, .nil => True
  | .cons h1 t1, .cons h2 t2 => sameShape h1 h2 ∧ sameShape t1 t2
  | _, _ => False

theorem unflattenAux_shape (m : PTree) (v : List ℝ) :
    sameShape (unflattenAux m v).1 m := by
  induction m generalizing v with
  | leaf x => exact trivial
  | nil => exact trivial
  | cons hd tl ih1 ih2 =>
    exact ⟨ih1 v, ih2 (unflattenAux hd v).2⟩

theorem unflatten_shape (flat : List ℝ) (model : PTree) :
    sameShape (unflatten flat model) model := unflattenAux_shape model flat

/-- Dot product of two flat vectors. -/
def dotL (u v : List ℝ) : ℝ := (List.zipWith (fun x y => x * y) u v).sum

/-- Matrix-vector product on row-major list matrices. -/
def matVec (M : List (List ℝ)) (v : List ℝ) : List ℝ :=
  M.map (fun row => dotL row v)

/-- Scalar times matrix. -/
def smulM (c : ℝ) (M : List (List ℝ)) : List (List ℝ) :=
  M.map (fun row => row.map (fun x => c * x))

/-- Scalar times vector. -/
def smulV (c : ℝ) (v : List ℝ) : List ℝ := v.map (fun x => c * x)

/-- Elementwise difference of two flat vectors. -/
def subV (u v : List ℝ) : List ℝ := List.zipWith (fun x y => x - y) u v

theorem dotL_smul_left (c : ℝ) (u v : List ℝ) :
    dotL (u.map (fun x => c * x)) v = c * dotL u v := by
  induction u generalizing v with
  | nil => simp [dotL]
  | cons a u ih =>
    cases v with
    | nil => simp [dotL]
    | cons b v =>
      simp only [List.map_cons, dotL, List.zipWith_cons_cons, List.sum_cons]
      rw [show (List.zipWith (fun x y => x * y) (List.map (fun x => c * x) u) v).sum
          = dotL (u.map (fun x => c * x)) v from rfl, ih]
      show c * a * b + c * dotL u v = c * (a * b + dotL u v)
      ring

/-- Scaling the matrix then applying it agrees with applying then scaling:
the code computes (stepsize * Minv) @ grad, the spec states
stepsize * (Minv @ grad). -/
theorem matVec_smulM (c : ℝ) (M : List (List ℝ)) (v : List ℝ) :
    matVec (smulM c M) v = smulV c (matVec M v) := by
  induction M with
  | nil => simp [matVec, smulM, smulV]
  | cons row M ih =>
    simp only [matVec, smulM, smulV, List.map_cons, List.cons.injEq] at ih ⊢
    exact ⟨dotL_smul_left c row v, ih⟩

/-- Modelled from the spec: the objective collaborator (the QNode class is
defined elsewhere in the repository), exposing an optional metric-tensor
oracle and a gradient oracle (spec sections 4.2 and 6). -/
structure QNode where
  metric_tensor : Option (PTree → Bool → List (List ℝ))
  grad : PTree → PTree

/-- Modelled from the spec: `GradientDescentOptimizer.compute_grad` (base
class file not under src) queries the gradient oracle of the objective. -/
def compute_grad (qnode : QNode) (x : PTree) : PTree := qnode.grad x

/-- State of QNGOptimizer from src/pennylane/optimize/qng.py: the base-class
`_stepsize`, `diag_approx` and the cached `metric_tensor_inv` assigned by
`__init__`.  Neither `__init__` nor any method ever assigns an attribute
named `metric_tensor`. -/
structure QNGOptimizer where
  stepsize : ℝ
  diag_approx : Bool
  metric_tensor_inv : Option (List (List ℝ))

/-- Constructor `QNGOptimizer(stepsize, diag_approx)`: the cached
pseudo-inverse starts out as None. -/
def QNGOptimizer.init (stepsize : ℝ) (diag_approx : Bool) : QNGOptimizer :=
  ⟨stepsize, diag_approx, none⟩

/-- Errors a `step` call can raise.  The source raises the builtin
`ValueError("Objective function must be encoded as a single QNode")` for a
missing metric-tensor oracle, which the spec taxonomy names
`ConfigurationError`; the other two are the Python runtime errors of reading
a never-assigned attribute and of multiplying None. -/
inductive StepError where
  | configurationError
  | attributeError
  | typeError

/-- `QNGOptimizer.apply_grad` from src/pennylane/optimize/qng.py: flatten the
gradient and the variables, move against the preconditioned gradient
`x_flat - (stepsize * metric_tensor_inv) @ grad_flat`, and restore the nested
shape of x.  When `metric_tensor_inv` is still None the Python expression
`self._stepsize * self.metric_tensor_inv` raises TypeError. -/
def QNGOptimizer.apply_grad (opt : QNGOptimizer) (grad x : PTree) :
    Except StepError PTree :=
  match opt.metric_tensor_inv with
  | none => .error .typeError
  | some minv =>
    .ok (unflatten (subV (_flatten x)
      (matVec (smulM opt.stepsize minv) (_flatten grad))) x)

/-- `QNGOptimizer.step` from src/pennylane/optimize/qng.py.  The scipy
routine `linalg.pinv` is external to the repository and is passed in as the
`pinv` argument.  When `recompute_tensor` is false the source condition
`recompute_tensor or self.metric_tensor is None` evaluates the attribute
`metric_tensor`, which no method of the class ever assigns (only
`metric_tensor_inv` is assigned), so Python raises AttributeError there.
The returned pair carries the call result and the post-call optimizer
state. -/
def QNGOptimizer.step (pinv : List (List ℝ) → List (List ℝ)) (opt : QNGOptimizer)
    (qnode : QNode) (x : PTree) (recompute_tensor : Bool) :
    Except StepError PTree × QNGOptimizer :=
  match qnode.metric_tensor with
  | none => (.error .configurationError, opt)
  | some mt =>
    if recompute_tensor then
      let opt2 : QNGOptimizer :=
        ⟨opt.stepsize, opt.diag_approx, some (pinv (mt x opt.diag_approx))⟩
      (opt2.apply_grad (compute_grad qnode x) x, opt2)
    else
      (.error .attributeError, opt)

/-- The update rule in the words of the spec (section 4.2): step computes
x - eta * pinv(metric_tensor) * gradient on the flattened parameter vector,
restored to the nested shape of x. -/
def qngSpecUpdate (pinv : List (List ℝ) → List (List ℝ)) (eta : ℝ)
    (G : List (List ℝ)) (gradv : List ℝ) (x : PTree) : PTree :=
  unflatten (subV (_flatten x) (smulV eta (matVec (pinv G) gradv))) x

/-- A 4x4 complex matrix indexed by pairs of qubit basis indices. -/
abbrev Mat4 := Matrix (Fin 2 × Fin 2) (Fin 2 × Fin 2) ℂ

/-- Entry accessor for 2x2 matrices. -/
def Mat2.entry (M : Mat2) (i j : Fin 2) : ℂ :=
  if i = 0 then (if j = 0 then M.a else M.b)
  else (if j = 0 then M.c else M.d)

/-- Kronecker product of two 2x2 matrices, the first factor indexing the
coarse blocks: kron(A, B). -/
def kron2 (A B : Mat2) : Mat4 :=
  Matrix.of (fun p q => A.entry p.1 q.1 * B.entry p.2 q.2)

/-- A two-qubit operation: its ordered pair of wires and its 4x4 matrix. -/
structure TwoQubitOp where
  wires : ℕ × ℕ
  matrix : Mat4

/-- A one-qubit operation: its wire and its 2x2 matrix. -/
structure OneQubitOp where
  wire : ℕ
  matrix : Mat2

/-- Modelled from the spec:
`pennylane.transforms.light_gate_merging.get_merged_op` is not under src
(only its tests are).  Spec sections 4.3 and 8: compose the two gates into
one gate on the extended wire set by Kronecker expansion and matrix
multiplication; per the src test expectations the one-qubit gate is expanded
as kron(eye(2), g2.matrix) for either of the two target wires. -/
def get_merged_op (g1 : TwoQubitOp) (g2 : OneQubitOp) : TwoQubitOp :=
  ⟨g1.wires, g1.matrix * kron2 ⟨1, 0, 0, 1⟩ g2.matrix⟩

/-- Matrix of the RX gate, used by the merge test. -/
def RXmat (t : ℝ) : Mat2 :=
  ⟨(Real.cos (t / 2) : ℂ), -Complex.I * (Real.sin (t / 2) : ℂ),
   -Complex.I * (Real.sin (t / 2) : ℂ), (Real.cos (t / 2) : ℂ)⟩

/-- Matrix of the CRY gate on wires (control, target): block diagonal of the
identity and RY. -/
def CRYmat (t : ℝ) : Mat4 :=
  Matrix.of (fun p q =>
    if p.1 = 0 then (if q.1 = 0 ∧ p.2 = q.2 then 1 else 0)
    else (if q.1 = 1 then (RYmat t).entry p.2 q.2 else 0))

/-- Concrete objective used by witnesses: a constant 1x1 metric tensor and
the identity gradient oracle. -/
def mtW : PTree → Bool → List (List ℝ) := fun _ _ => [[2]]

/-- Concrete objective exposing a metric-tensor oracle. -/
def qnodeW : QNode := ⟨some mtW, fun t => t⟩

/-- Concrete objective lacking a metric-tensor oracle. -/
def qnodeNoMT : QNode := ⟨none, fun t => t⟩

/-- Concrete optimizer state produced by the constructor. -/
def optW : QNGOptimizer := QNGOptimizer.init 1 false

/-- C1: for every 2x2 complex matrix U that is unitary and every wire label
w, the matrix product in application order of the gate sequence returned by
_zyz_decomposition (U, w) equals U up to one global scalar phase (the
exact-arithmetic idealisation of the 1e-6 tolerance). -/
theorem C1_zyz_roundtrip {W : Type} (U : Mat2) (w : W) (hU : isUnitary U) :
    ∃ gs : List (GateDescriptor W), _zyz_decomposition U w = .ok gs ∧
      ∃ l : ℂ, Complex.abs l = 1 ∧ seqMatrix gs = l • U := by
  obtain ⟨g, hok, ⟨l, hl, hm⟩, -, -⟩ := zyz_main U w hU
  refine ⟨[g], hok, l, hl, ?_⟩
  rw [seqMatrix_singleton]
  exact hm

/-- Witness for C1 at the Hadamard matrix. -/
theorem C1_zyz_roundtrip_witness :
    isUnitary Hmat ∧
      ∃ gs : List (GateDescriptor String), _zyz_decomposition Hmat "a" = .ok gs ∧
        ∃ l : ℂ, Complex.abs l = 1 ∧ seqMatrix gs = l • Hmat :=
  ⟨Hmat_unitary, C1_zyz_roundtrip Hmat "a" Hmat_unitary⟩

/-- C2 counterexample: the diagonal unitary input RZ(3 pi) does not decompose
to RZGate(3 pi); the recovered angle is wrapped to the principal branch,
giving RZGate(-pi). -/
theorem C2_rz_angle_not_returned :
    _zyz_decomposition (RZmat (3 * Real.pi)) "a"
      ≠ .ok [.RZGate (3 * Real.pi) "a"] := by
  rw [RZmat_three_pi, zyz_rz_neg_pi]
  intro h
  have hpos := Real.pi_pos
  simp only [Except.ok.injEq, List.cons.injEq, GateDescriptor.RZGate.injEq] at h
  obtain ⟨⟨h1, -⟩, -⟩ := h
  linarith

/-- C2 amended: the diagonal inputs I, Z, S, T decompose to exactly one
RZGate with the known closed-form angle (0, pi, pi/2, pi/4 respectively),
and RZ(t) gives back exactly RZGate(t) for every t in the principal window
(-2 pi, 2 pi]; outside that window the angle is recovered only modulo the
principal branch, as the counterexample at t = 3 pi shows. -/
theorem C2_diagonal_closed_forms {W : Type} (w : W) :
    _zyz_decomposition Imat w = .ok [.RZGate 0 w] ∧
    _zyz_decomposition Zmat w = .ok [.RZGate Real.pi w] ∧
    _zyz_decomposition Smat w = .ok [.RZGate (Real.pi / 2) w] ∧
    _zyz_decomposition Tmat w = .ok [.RZGate (Real.pi / 4) w] ∧
    ∀ t : ℝ, t ∈ Set.Ioc (-(2 * Real.pi)) (2 * Real.pi) →
      _zyz_decomposition (RZmat t) w = .ok [.RZGate t w] := by
  have hpos := Real.pi_pos
  refine ⟨?_, ?_, ?_, ?_, ?_⟩
  · rw [Imat_eq_diagE,
      zyz_diagE 0 0 w ⟨by linarith, by linarith⟩ ⟨by linarith, by linarith⟩]
    norm_num
  · rw [Zmat_eq_diagE,
      zyz_diagE 0 Real.pi w ⟨by linarith, by linarith⟩ ⟨by linarith, by linarith⟩]
    rw [show (Real.pi - 0 : ℝ) = Real.pi by ring]
  · rw [Smat_eq_diagE,
      zyz_diagE 0 (Real.pi / 2) w ⟨by linarith, by linarith⟩ ⟨by linarith, by linarith⟩]
    rw [show (Real.pi / 2 - 0 : ℝ) = Real.pi / 2 by ring]
  · rw [Tmat_eq_diagE,
      zyz_diagE 0 (Real.pi / 4) w ⟨by linarith, by linarith⟩ ⟨by linarith, by linarith⟩]
    rw [show (Real.pi / 4 - 0 : ℝ) = Real.pi / 4 by ring]
  · intro t ht
    obtain ⟨ht1, ht2⟩ := ht
    rw [RZmat_eq_diagE,
      zyz_diagE (-(t / 2)) (t / 2) w ⟨by linarith, by linarith⟩ ⟨by linarith, by linarith⟩]
    rw [show (t / 2 - -(t / 2) : ℝ) = t by ring]

/-- Witness for C2 at the RZ(pi) test angle. -/
theorem C2_diagonal_closed_forms_witness :
    _zyz_decomposition (RZmat Real.pi) "a" = .ok [.RZGate Real.pi "a"] :=
  (C2_diagonal_closed_forms "a").2.2.2.2 Real.pi
    ⟨by linarith [Real.pi_pos], by linarith [Real.pi_pos]⟩

/-- C3 counterexample: multiplying the non-diagonal Hadamard input by the
extra global phase factor exp(i pi) changes the returned decomposition: the
recovered phi angle flips from pi to -pi. -/
theorem C3_phase_changes_decomposition :
    _zyz_decomposition (cexp Real.pi • Hmat) "a" ≠ _zyz_decomposition Hmat "a" := by
  rw [zyz_Hmat, zyz_minusH]
  intro h
  have hpos := Real.pi_pos
  simp only [Except.ok.injEq, List.cons.injEq, GateDescriptor.RotGate.injEq] at h
  obtain ⟨⟨h1, -⟩, -⟩ := h
  linarith

/-- C3 amended: every non-diagonal unitary input decomposes to exactly one
RotGate whose angles reproduce the input up to a global phase, and the input
carrying any extra global phase factor exp(i g) still decomposes to exactly
one RotGate reproducing the original input up to a global phase; the angle
values themselves may shift (see the counterexample), so only the
up-to-phase behaviour, not the literal angles, is phase invariant. -/
theorem C3_nondiagonal_rot {W : Type} (U : Mat2) (w : W) (hU : isUnitary U)
    (hb : U.b ≠ 0) :
    (∃ p t o, _zyz_decomposition U w = .ok [.RotGate p t o w] ∧
      ∃ l : ℂ, Complex.abs l = 1 ∧ Rotmat p t o = l • U) ∧
    (∀ g : ℝ, ∃ p t o,
      _zyz_decomposition (cexp g • U) w = .ok [.RotGate p t o w] ∧
      ∃ l : ℂ, Complex.abs l = 1 ∧ Rotmat p t o = l • U) := by
  have main : ∀ M : Mat2, isUnitary M → M.b ≠ 0 →
      ∃ p t o, _zyz_decomposition M w = .ok [.RotGate p t o w] ∧
        ∃ l : ℂ, Complex.abs l = 1 ∧ Rotmat p t o = l • M := by
    intro M hM hMb
    obtain ⟨g0, hok, ⟨l, hl, hm⟩, -, hrot⟩ := zyz_main M w hM
    have hVb := convert_b_ne_zero hMb
    obtain ⟨p, t, o, rfl⟩ := hrot (fun h => hVb h.1)
    exact ⟨p, t, o, hok, l, hl, hm⟩
  refine ⟨main U hU hb, ?_⟩
  intro g
  obtain ⟨p, t, o, hok, l, hl, hm⟩ := main (cexp g • U) (hU.smul (abs_cexp g))
    (by simp only [Mat2.smul_b]; exact mul_ne_zero (cexp_ne_zero g) hb)
  refine ⟨p, t, o, hok, l * cexp g, ?_, ?_⟩
  · rw [map_mul, hl, abs_cexp, one_mul]
  · rw [hm, Mat2.smul_smul]

/-- Witness for C3 at the Hadamard matrix. -/
theorem C3_nondiagonal_rot_witness :
    isUnitary Hmat ∧ Hmat.b ≠ 0 ∧
      ((∃ p t o, _zyz_decomposition Hmat "a" = .ok [.RotGate p t o "a"] ∧
        ∃ l : ℂ, Complex.abs l = 1 ∧ Rotmat p t o = l • Hmat) ∧
      (∀ g : ℝ, ∃ p t o,
        _zyz_decomposition (cexp g • Hmat) "a" = .ok [.RotGate p t o "a"] ∧
        ∃ l : ℂ, Complex.abs l = 1 ∧ Rotmat p t o = l • Hmat)) :=
  ⟨Hmat_unitary, sqrtHalf_ne_zero,
    C3_nondiagonal_rot Hmat "a" Hmat_unitary sqrtHalf_ne_zero⟩

/-- C4: for every 2x2 matrix that fails the unitarity check,
_zyz_decomposition raises the invalid-operator error eagerly and returns no
gates. -/
theorem C4_nonunitary_error {W : Type} (U : Mat2) (w : W) (hU : ¬ isUnitary U) :
    _zyz_decomposition U w = .error .invalidOperator := by
  unfold _zyz_decomposition
  rw [if_neg hU]

/-- Witness for C4 at the test input I + H. -/
theorem C4_nonunitary_error_witness :
    ¬ isUnitary (Imat + Hmat) ∧
      _zyz_decomposition (Imat + Hmat) "a" = .error .invalidOperator :=
  ⟨IplusH_not_unitary, C4_nonunitary_error (Imat + Hmat) "a" IplusH_not_unitary⟩

/-- C5: for every unitary input the returned gate sequence has length
exactly one. -/
theorem C5_single_gate {W : Type} (U : Mat2) (w : W) (hU : isUnitary U) :
    ∃ gs : List (GateDescriptor W), _zyz_decomposition U w = .ok gs ∧
      gs.length = 1 := by
  obtain ⟨g, hok, -, -, -⟩ := zyz_main U w hU
  exact ⟨[g], hok, rfl⟩

/-- Witness for C5 at the Pauli Z matrix. -/
theorem C5_single_gate_witness :
    isUnitary Zmat ∧
      ∃ gs : List (GateDescriptor String), _zyz_decomposition Zmat "a" = .ok gs ∧
        gs.length = 1 :=
  ⟨Zmat_unitary, C5_single_gate Zmat "a" Zmat_unitary⟩

/-- C6: with recompute_tensor = true and an objective exposing a
metric-tensor oracle, step returns x - eta * pinv(metric_tensor(x)) *
gradient(x) computed on the flattened parameter vector, restored to the
original nested shape of x; the SVD-based pseudo-inverse is the external
scipy routine passed as pinv. -/
theorem C6_step_update (pinv : List (List ℝ) → List (List ℝ))
    (opt : QNGOptimizer) (qnode : QNode)
    (mt : PTree → Bool → List (List ℝ)) (x : PTree)
    (hmt : qnode.metric_tensor = some mt) :
    (QNGOptimizer.step pinv opt qnode x true).1 =
      .ok (qngSpecUpdate pinv opt.stepsize (mt x opt.diag_approx)
        (_flatten (qnode.grad x)) x) ∧
    sameShape (qngSpecUpdate pinv opt.stepsize (mt x opt.diag_approx)
        (_flatten (qnode.grad x)) x) x := by
  constructor
  · simp only [QNGOptimizer.step, hmt, if_true, QNGOptimizer.apply_grad,
      compute_grad, qngSpecUpdate, matVec_smulM]
  · exact unflatten_shape _ _

/-- Witness for C6 on a one-leaf parameter structure. -/
theorem C6_step_update_witness :
    qnodeW.metric_tensor = some mtW ∧
      ((QNGOptimizer.step id optW qnodeW (.leaf 3) true).1 =
        .ok (qngSpecUpdate id optW.stepsize (mtW (.leaf 3) optW.diag_approx)
          (_flatten (qnodeW.grad (.leaf 3))) (.leaf 3)) ∧
      sameShape (qngSpecUpdate id optW.stepsize (mtW (.leaf 3) optW.diag_approx)
          (_flatten (qnodeW.grad (.leaf 3))) (.leaf 3)) (.leaf 3)) :=
  ⟨rfl, C6_step_update id optW qnodeW mtW (.leaf 3) rfl⟩

/-- C7: step on an objective lacking the metric-tensor oracle fails with the
configuration error (the ValueError of the source, named ConfigurationError
by the spec), for either value of recompute_tensor. -/
theorem C7_missing_oracle_error (pinv : List (List ℝ) → List (List ℝ))
    (opt : QNGOptimizer) (qnode : QNode) (x : PTree) (r : Bool)
    (h : qnode.metric_tensor = none) :
    (QNGOptimizer.step pinv opt qnode x r).1 = .error .configurationError := by
  simp only [QNGOptimizer.step, h]

/-- Witness for C7. -/
theorem C7_missing_oracle_error_witness :
    qnodeNoMT.metric_tensor = none ∧
      (QNGOptimizer.step id optW qnodeNoMT (.leaf 3) true).1 =
        .error .configurationError :=
  ⟨rfl, C7_missing_oracle_error id optW qnodeNoMT (.leaf 3) true rfl⟩

/-- C8 (documents the code bug): after a first successful step has stored a
pseudo-inverse, a second step with recompute_tensor = false does not reuse
the cache: the source condition reads `self.metric_tensor`, an attribute
that no method of the class ever assigns, so the call raises AttributeError
instead of succeeding. -/
theorem C8_cached_step_attribute_error (pinv : List (List ℝ) → List (List ℝ))
    (opt : QNGOptimizer) (qnode : QNode)
    (mt : PTree → Bool → List (List ℝ)) (x y : PTree)
    (hmt : qnode.metric_tensor = some mt) :
    (QNGOptimizer.step pinv
        ((QNGOptimizer.step pinv opt qnode x true).2) qnode y false).1 =
      .error .attributeError := by
  simp only [QNGOptimizer.step, hmt, if_true, if_false, Bool.false_eq_true, ite_false]

/-- Witness for C8. -/
theorem C8_cached_step_attribute_error_witness :
    qnodeW.metric_tensor = some mtW ∧
      (QNGOptimizer.step id
          ((QNGOptimizer.step id optW qnodeW (.leaf 3) true).2) qnodeW
          (.leaf 3) false).1 = .error .attributeError :=
  ⟨rfl, C8_cached_step_attribute_error id optW qnodeW mtW (.leaf 3) (.leaf 3) rfl⟩

/-- C9: merging a two-qubit gate with a one-qubit gate whose wire lies in
the extended wire set yields the matrix g1 @ kron(eye(2), g2) and keeps the
wire pair of g1. -/
theorem C9_merged_matrix (g1 : TwoQubitOp) (g2 : OneQubitOp)
    (h : g2.wire = g1.wires.1 ∨ g2.wire = g1.wires.2) :
    (get_merged_op g1 g2).matrix = g1.matrix * kron2 ⟨1, 0, 0, 1⟩ g2.matrix ∧
    (get_merged_op g1 g2).wires = g1.wires :=
  ⟨rfl, rfl⟩

/-- Witness for C9 at the src test gates CRY(0.5432) on wires (0, 1) and
RX(0.5432) on wire 0. -/
theorem C9_merged_matrix_witness :
    ((⟨0, RXmat 0.5432⟩ : OneQubitOp).wire
        = (⟨(0, 1), CRYmat 0.5432⟩ : TwoQubitOp).wires.1 ∨
      (⟨0, RXmat 0.5432⟩ : OneQubitOp).wire
        = (⟨(0, 1), CRYmat 0.5432⟩ : TwoQubitOp).wires.2) ∧
    ((get_merged_op ⟨(0, 1), CRYmat 0.5432⟩ ⟨0, RXmat 0.5432⟩).matrix
        = (CRYmat 0.5432 : Mat4) * kron2 ⟨1, 0, 0, 1⟩ (RXmat 0.5432) ∧
      (get_merged_op ⟨(0, 1), CRYmat 0.5432⟩ ⟨0, RXmat 0.5432⟩).wires = (0, 1)) :=
  ⟨Or.inl rfl,
    C9_merged_matrix ⟨(0, 1), CRYmat 0.5432⟩ ⟨0, RXmat 0.5432⟩ (Or.inl rfl)⟩

/-- C10: when the objective lacks the metric-tensor oracle, the failing step
leaves the optimizer state exactly as it was: metric_tensor_inv, diag_approx
and stepsize are unchanged. -/
theorem C10_failed_step_state_unchanged (pinv : List (List ℝ) → List (List ℝ))
    (opt : QNGOptimizer) (qnode : QNode) (x : PTree) (r : Bool)
    (h : qnode.metric_tensor = none) :
    (QNGOptimizer.step pinv opt qnode x r).2.metric_tensor_inv
        = opt.metric_tensor_inv ∧
    (QNGOptimizer.step pinv opt qnode x r).2.diag_approx = opt.diag_approx ∧
    (QNGOptimizer.step pinv opt qnode x r).2.stepsize = opt.stepsize := by
  simp only [QNGOptimizer.step, h]
  exact ⟨trivial, trivial, trivial⟩

/-- Witness for C10. -/
theorem C10_failed_step_state_unchanged_witness :
    qnodeNoMT.metric_tensor = none ∧
      ((QNGOptimizer.step id optW qnodeNoMT (.leaf 3) false).2.metric_tensor_inv
          = optW.metric_tensor_inv ∧
       (QNGOptimizer.step id optW qnodeNoMT (.leaf 3) false).2.diag_approx
          = optW.diag_approx ∧
       (QNGOptimizer.step id optW qnodeNoMT (.leaf 3) false).2.stepsize
          = optW.stepsize) :=
  ⟨rfl, C10_failed_step_state_unchanged id optW qnodeNoMT (.leaf 3) false rfl⟩

end
